import Mathlib

set_option maxHeartbeats 1000000
set_option maxRecDepth 20000

/-!
Shallow embedding of the sentence-extraction pipeline of
`src/app/api/random-sentences/route.ts` (three revisions of the same
route file: a lenient OCR-cleaning revision, a markup-aware revision and
an early revision).  JavaScript strings are modelled as `List Char`;
`Math.floor(n * 0.15)` style computations are modelled with exact natural
division (`15 * n / 100`), and floating-point ratio comparisons such as
`letterRatio > 0.3` are modelled by the exact rational comparison
`3 * total < 10 * letters`.
-/

namespace IaCutup

/-! ### Character classes (ASCII, as in the source regexes) -/

/-- JavaScript regex `\s` restricted to the ASCII range. -/
def isWsChar (c : Char) : Bool :=
  c == ' ' || c == '\t' || c == '\n' || c == '\r' || c == '\x0b' || c == '\x0c'

def isNlChar (c : Char) : Bool := c == '\n'

/-- The regex class `[A-Z]` used as the capital-letter lookahead. -/
def isUpperChar (c : Char) : Bool := decide ('A' ≤ c ∧ c ≤ 'Z')

/-- The regex class `[a-zA-Z]`. -/
def isAlphaChar (c : Char) : Bool :=
  decide ('A' ≤ c ∧ c ≤ 'Z') || decide ('a' ≤ c ∧ c ≤ 'z')

def isDigitChar (c : Char) : Bool := decide ('0' ≤ c ∧ c ≤ '9')

/-- The regex class `\w` = `[A-Za-z0-9_]`. -/
def isWordChar (c : Char) : Bool := isAlphaChar c || isDigitChar c || c == '_'

/-- Sentence-terminal characters `[.!?]`. -/
def isTermChar (c : Char) : Bool := c == '.' || c == '!' || c == '?'

/-- ASCII lowering, as `String.prototype.toLowerCase` acts on ASCII input. -/
def lowerChar (c : Char) : Char :=
  if decide ('A' ≤ c ∧ c ≤ 'Z') then Char.ofNat (c.toNat + 32) else c

def toLowerList (s : List Char) : List Char := s.map lowerChar

/-! ### String utilities -/

/-- `needle` is a prefix of the second argument. -/
def startsWithList : List Char → List Char → Bool
  | [], _ => true
  | _ :: _, [] => false
  | a :: as, b :: bs => a == b && startsWithList as bs

/-- `String.prototype.includes`: `needle` occurs as a contiguous substring. -/
def containsList (needle : List Char) : List Char → Bool
  | [] => startsWithList needle []
  | hay@(_ :: rest) => startsWithList needle hay || containsList needle rest

/-- `text.split("\n")`: split at every `'\n'`; the empty string yields `[""]`. -/
def splitOnNlGo (acc : List Char) : List Char → List (List Char)
  | [] => [acc.reverse]
  | c :: cs =>
    if c == '\n' then acc.reverse :: splitOnNlGo [] cs else splitOnNlGo (c :: acc) cs

def splitOnNl (t : List Char) : List (List Char) := splitOnNlGo [] t

/-- `lines.join("\n")`. -/
def joinNl : List (List Char) → List Char
  | [] => []
  | [l] => l
  | l :: ls => l ++ '\n' :: joinNl ls

/-- `.replace(/p+/g, " ")`: every maximal run of characters satisfying `p`
becomes a single space.  The flag records whether we are inside a run. -/
def collapseRunsGo (p : Char → Bool) : Bool → List Char → List Char
  | _, [] => []
  | inRun, c :: cs =>
    if p c then
      if inRun then collapseRunsGo p true cs else ' ' :: collapseRunsGo p true cs
    else c :: collapseRunsGo p false cs

def collapseRuns (p : Char → Bool) (s : List Char) : List Char := collapseRunsGo p false s

/-- Drop the longest suffix of characters satisfying `p`. -/
def dropLastWhile (p : Char → Bool) : List Char → List Char
  | [] => []
  | c :: cs =>
    match dropLastWhile p cs with
    | [] => if p c then [] else [c]
    | r => c :: r

/-- `String.prototype.trim`: whitespace removed from both ends. -/
def trimList (s : List Char) : List Char := dropLastWhile isWsChar (s.dropWhile isWsChar)

/-! ### Content filter, plain revision (`filterMainContent`, rev 1 and rev 3)

The source splits on `"\n"`, computes `skipLines = Math.floor(lines.length *
0.15)` and returns `lines.slice(skipLines).join("\n")`.  The `skipPatterns`
array declared inside the function is never consulted. -/

def filterMainContentLines (t : List Char) : List (List Char) :=
  (splitOnNl t).drop (15 * (splitOnNl t).length / 100)

def filterMainContent (t : List Char) : List Char := joinNl (filterMainContentLines t)

/-! ### Whitespace normalisation and the sentence split

`extractSentences` (rev 1) cleans with
`.replace(/\n+/g," ").replace(/\s+/g," ").replace(/[^\w\s.!?]/g," ")
.replace(/\s+/g," ").trim()` and then splits on
`/(?<=[.!?])\s+(?=[A-Z])/`: a maximal whitespace run is a separator exactly
when the character before it is in `[.!?]` and the character after it is in
`[A-Z]`; the run itself is consumed. -/

/-- `.replace(/[^\w\s.!?]/g, " ")` acts on one character. -/
def cleanChar (c : Char) : Char :=
  if isWordChar c || isWsChar c || isTermChar c then c else ' '

def cleanText (t : List Char) : List Char :=
  trimList (collapseRuns isWsChar ((collapseRuns isWsChar (collapseRuns isNlChar t)).map cleanChar))

def accEndsTerm : List Char → Bool
  | [] => false
  | a :: _ => isTermChar a

/-- Worker for the lookaround split.  `acc` is the current segment
(reversed); `buf` is a pending whitespace run (reversed) that started right
after a `[.!?]` character and may yet turn out to be a separator. -/
def splitGo : List Char → List Char → List Char → List (List Char)
  | acc, buf, [] => [(buf ++ acc).reverse]
  | acc, buf, c :: cs =>
    if isWsChar c then
      if buf.isEmpty then
        if accEndsTerm acc then splitGo acc [c] cs
        else splitGo (c :: acc) [] cs
      else splitGo acc (c :: buf) cs
    else
      if buf.isEmpty then splitGo (c :: acc) [] cs
      else if isUpperChar c then acc.reverse :: splitGo [c] [] cs
      else splitGo (c :: (buf ++ acc)) [] cs

/-- `.split(/(?<=[.!?])\s+(?=[A-Z])/)`. -/
def splitSentences (s : List Char) : List (List Char) := splitGo [] [] s

/-! ### The acceptance cascade (rev 1) -/

def letterCount (s : List Char) : Nat := (s.filter isAlphaChar).length

/-- `/[a-zA-Z]{3,}/.test(s)`: some three consecutive alphabetic characters. -/
def hasThreeLetters : List Char → Bool
  | a :: b :: c :: rest =>
    (isAlphaChar a && isAlphaChar b && isAlphaChar c) || hasThreeLetters (b :: c :: rest)
  | _ => false

def excludeKeywords : List (List Char) :=
  [("GNU").data, ("GPL").data, ("license").data, ("copyright").data, ("gutenberg").data,
   ("warranty").data, ("redistribution").data, ("permission").data,
   ("terms and conditions").data, ("free software foundation").data,
   ("all rights reserved").data, ("page").data, ("chapter").data,
   ("table of contents").data, ("index").data]

/-- `excludeKeywords.some(k => lowerSentence.includes(k.toLowerCase()))`. -/
def hasExcludedKeyword (kws : List (List Char)) (s : List Char) : Bool :=
  kws.any fun kw => containsList (toLowerList kw) (toLowerList s)

/-- The filter callback of rev 1: length in `[15,600]`, no deny-list
keyword, a three-letter run, and `letterRatio > 0.3` (modelled exactly as
`3 * s.length < 10 * letterCount s`). -/
def keepSentence (s : List Char) : Bool :=
  if s.length < 15 || 600 < s.length then false
  else if hasExcludedKeyword excludeKeywords s then false
  else hasThreeLetters s && decide (3 * s.length < 10 * letterCount s)

/-- `extractSentences` (rev 1). -/
def extractSentences (t : List Char) : List (List Char) :=
  ((splitSentences (cleanText (filterMainContent t))).map trimList).filter keepSentence

/-! ### The early revision (rev 3)

No special-character stripping and no trailing trim before the split; the
length bounds are `[20,500]`; the deny-list is shorter; there is no
letter-ratio check, only the three-consecutive-letters test. -/

def excludeKeywordsEarly : List (List Char) :=
  [("GNU").data, ("GPL").data, ("license").data, ("copyright").data, ("gutenberg").data,
   ("warranty").data, ("redistribution").data, ("permission").data,
   ("terms and conditions").data, ("free software foundation").data,
   ("all rights reserved").data]

def keepSentenceEarly (s : List Char) : Bool :=
  if s.length < 20 || 500 < s.length then false
  else if hasExcludedKeyword excludeKeywordsEarly s then false
  else hasThreeLetters s

def earlyNormalize (t : List Char) : List Char :=
  collapseRuns isWsChar (collapseRuns isNlChar t)

def extractSentencesEarly (t : List Char) : List (List Char) :=
  ((splitSentences (earlyNormalize (filterMainContent t))).map trimList).filter keepSentenceEarly

/-! ### A small regular-expression engine

The markup-aware revision tests lines and sentences against JavaScript
regex literals.  We embed them with Brzozowski derivatives: `prefMatch`
decides whether some prefix matches (a `^`-anchored `.match`), `full`
decides a whole-string match, `suffixFull` a `$`-anchored match at the end,
and `search` an unanchored `.match`.  A `$` inside an alternation (as in
`(\s+\{|...|$)`) is translated by splitting the pattern into an anchored
prefix alternative and a full-match alternative. -/

inductive RE : Type where
  | emp : RE
  | eps : RE
  | cls : (Char → Bool) → RE
  | cat : RE → RE → RE
  | alt : RE → RE → RE
  | star : RE → RE

def RE.nullable : RE → Bool
  | .emp => false
  | .eps => true
  | .cls _ => false
  | .cat a b => a.nullable && b.nullable
  | .alt a b => a.nullable || b.nullable
  | .star _ => true

def RE.deriv : RE → Char → RE
  | .emp, _ => .emp
  | .eps, _ => .emp
  | .cls p, c => if p c then .eps else .emp
  | .cat a b, c =>
    if a.nullable then .alt (.cat (a.deriv c) b) (b.deriv c) else .cat (a.deriv c) b
  | .alt a b, c => .alt (a.deriv c) (b.deriv c)
  | .star a, c => .cat (a.deriv c) (.star a)

/-- Some prefix of the string is in the language of `r`. -/
def RE.prefMatch : RE → List Char → Bool
  | r, [] => r.nullable
  | r, c :: cs => r.nullable || RE.prefMatch (r.deriv c) cs

/-- The whole string is in the language of `r`. -/
def RE.full : RE → List Char → Bool
  | r, [] => r.nullable
  | r, c :: cs => RE.full (r.deriv c) cs

/-- Some substring is in the language of `r` (unanchored `.match`). -/
def RE.search : RE → List Char → Bool
  | r, [] => r.nullable
  | r, s@(_ :: cs) => r.prefMatch s || RE.search r cs

/-- Some suffix is in the language of `r` (a `$`-anchored `.match`). -/
def RE.suffixFull : RE → List Char → Bool
  | r, [] => r.nullable
  | r, s@(_ :: cs) => r.full s || RE.suffixFull r cs

def RE.chr (c : Char) : RE := .cls fun x => x == c

def RE.lit (l : List Char) : RE := l.foldr (fun c r => .cat (RE.chr c) r) .eps

def RE.plus (r : RE) : RE := .cat r (.star r)

def RE.opt (r : RE) : RE := .alt r .eps

def RE.anyOf (ls : List (List Char)) : RE := ls.foldr (fun l r => .alt (RE.lit l) r) .emp

def RE.inSet (cs : List Char) : RE := .cls fun x => cs.contains x

def wordHyphCls : RE := .cls fun c => isWordChar c || c == '-'

def wsCls : RE := .cls isWsChar

def digitCls : RE := .cls isDigitChar

def hexCls : RE :=
  .cls fun c => isDigitChar c || decide ('a' ≤ c ∧ c ≤ 'f') || decide ('A' ≤ c ∧ c ≤ 'F')

def anyCls : RE := .cls fun _ => true

/-- `[0-9a-fA-F]{3,6}`: three hex digits followed by up to three more. -/
def hexRep36 : RE :=
  .cat hexCls (.cat hexCls (.cat hexCls
    (RE.opt (.cat hexCls (RE.opt (.cat hexCls (RE.opt hexCls)))))))

/-! ### Content filter, markup-aware revision (`filterMainContent`, rev 2)

Each `line` of the split text is dropped when any of the thirteen
structural-noise checks matches its trimmed form; then the first
`Math.floor(0.15 * lines.length)` of the surviving lines are dropped. -/

/-- `^(\.|\#)[a-zA-Z0-9_\-]+` — the shared head of the CSS-selector rule. -/
def cssSelectorHead : RE := .cat (RE.inSet ['.', '#']) (RE.plus wordHyphCls)

/-- `/^(\.|\#)[a-zA-Z0-9_\-]+(\s+\{|\s+[a-zA-Z0-9_\-]+\s*\{|$)/`. -/
def noise1 (tr : List Char) : Bool :=
  RE.prefMatch (.cat cssSelectorHead
    (.alt (.cat (RE.plus wsCls) (RE.chr '{'))
          (.cat (RE.plus wsCls) (.cat (RE.plus wordHyphCls)
            (.cat (.star wsCls) (RE.chr '{')))))) tr
  || RE.full cssSelectorHead tr

/-- `^\.([\w\-]+\s*)+` — the shared head of the CSS-class-definition rule. -/
def classDefHead : RE := .cat (RE.chr '.') (RE.plus (.cat (RE.plus wordHyphCls) (.star wsCls)))

/-- `/^\.([\w\-]+\s*)+(\{|\:|$)/`. -/
def noise2 (tr : List Char) : Bool :=
  RE.prefMatch (.cat classDefHead (RE.inSet ['{', ':'])) tr || RE.full classDefHead tr

/-- `/^(display|margin|padding|border|background|color|font|width|height|position|flex|grid)/i`. -/
def noise3 (tr : List Char) : Bool :=
  RE.prefMatch (RE.anyOf [("display").data, ("margin").data, ("padding").data, ("border").data,
    ("background").data, ("color").data, ("font").data, ("width").data, ("height").data,
    ("position").data, ("flex").data, ("grid").data]) (toLowerList tr)

/-- `/^(button|label|div|span|style|class|id)\s*(\.|\#|\{|\:)/i`. -/
def noise4 (tr : List Char) : Bool :=
  RE.prefMatch (.cat (RE.anyOf [("button").data, ("label").data, ("div").data, ("span").data,
    ("style").data, ("class").data, ("id").data])
    (.cat (.star wsCls) (RE.inSet ['.', '#', '{', ':']))) (toLowerList tr)

/-- `/^<[^>]+>|<\/[^>]+>$/`. -/
def noise5 (tr : List Char) : Bool :=
  RE.prefMatch (.cat (RE.chr '<') (.cat (RE.plus (.cls fun c => !(c == '>'))) (RE.chr '>'))) tr
  || RE.suffixFull (.cat (RE.lit ['<', '/'])
      (.cat (RE.plus (.cls fun c => !(c == '>'))) (RE.chr '>'))) tr

/-- `/^\{[\s\S]*\}$/`. -/
def noise6 (tr : List Char) : Bool :=
  RE.full (.cat (RE.chr '{') (.cat (.star anyCls) (RE.chr '}'))) tr

/-- `/^(Shady DOM|Shadow DOM|Web Component)/i`. -/
def noise7 (tr : List Char) : Bool :=
  RE.prefMatch (RE.anyOf [("shady dom").data, ("shadow dom").data, ("web component").data])
    (toLowerList tr)

/-- `/^(style|styles)\s+(for|in|of)\s+/i`. -/
def noise8 (tr : List Char) : Bool :=
  RE.prefMatch (.cat (.alt (RE.lit ("style").data) (RE.lit ("styles").data))
    (.cat (RE.plus wsCls)
      (.cat (RE.anyOf [("for").data, ("in").data, ("of").data]) (RE.plus wsCls))))
    (toLowerList tr)

/-- `trimmed.includes('webkit') || trimmed.includes('mozilla') || trimmed.includes('moz-')`. -/
def noise9 (tr : List Char) : Bool :=
  containsList ("webkit").data tr || containsList ("mozilla").data tr
    || containsList ("moz-").data tr

/-- `/^(true|false|null|undefined|var|let|const|function)\s*[\{\(\=\;]/`. -/
def noise10 (tr : List Char) : Bool :=
  RE.prefMatch (.cat (RE.anyOf [("true").data, ("false").data, ("null").data,
    ("undefined").data, ("var").data, ("let").data, ("const").data, ("function").data])
    (.cat (.star wsCls) (RE.inSet ['{', '(', '=', ';']))) tr

/-- `/\:\s*\d+px|\:\s*#[0-9a-fA-F]{3,6}|\:\s*rgba?\(/` (unanchored). -/
def cssValueRe : RE :=
  .alt (.cat (RE.chr ':') (.cat (.star wsCls) (.cat (RE.plus digitCls) (RE.lit ("px").data))))
  (.alt (.cat (RE.chr ':') (.cat (.star wsCls) (.cat (RE.chr '#') hexRep36)))
        (.cat (RE.chr ':') (.cat (.star wsCls)
          (.cat (RE.lit ("rgb").data) (.cat (RE.opt (RE.chr 'a')) (RE.chr '('))))))

def noise11 (tr : List Char) : Bool := RE.search cssValueRe tr

/-- `/^[\{\}\[\]\(\)\;]+$/`. -/
def noise12 (tr : List Char) : Bool :=
  RE.full (RE.plus (RE.inSet ['{', '}', '[', ']', '(', ')', ';'])) tr

/-- `/^\d+\s*\{/`. -/
def noise13 (tr : List Char) : Bool :=
  RE.prefMatch (.cat (RE.plus digitCls) (.cat (.star wsCls) (RE.chr '{'))) tr

/-- The filter callback over lines of rev 2: a line is dropped when any of
the thirteen structural-noise checks fires on its trimmed form. -/
def isNoiseLine (line : List Char) : Bool :=
  noise1 (trimList line) || noise2 (trimList line) || noise3 (trimList line)
    || noise4 (trimList line) || noise5 (trimList line) || noise6 (trimList line)
    || noise7 (trimList line) || noise8 (trimList line) || noise9 (trimList line)
    || noise10 (trimList line) || noise11 (trimList line) || noise12 (trimList line)
    || noise13 (trimList line)

def noiseKeptLines (t : List Char) : List (List Char) :=
  (splitOnNl t).filter fun l => !isNoiseLine l

def filterMainContentMarkupLines (t : List Char) : List (List Char) :=
  (noiseKeptLines t).drop (15 * (noiseKeptLines t).length / 100)

def filterMainContentMarkup (t : List Char) : List Char :=
  joinNl (filterMainContentMarkupLines t)

/-! ### Sentence extractor, markup-aware revision (rev 2) -/

def excludeKeywordsMarkup : List (List Char) :=
  excludeKeywords ++
  [("css").data, ("html").data, ("style").data, ("display").data, ("margin").data,
   ("padding").data, ("border").data, ("webkit").data, ("mozilla").data,
   ("shadow dom").data, ("shady dom").data, ("web component").data]

/-- `/\.(media|button|label|web|menu|nav|header|footer|container|wrapper)\s+(button|label|display|none|flex|grid|style)/i`. -/
def cssChainRe : RE :=
  .cat (RE.chr '.') (.cat (RE.anyOf [("media").data, ("button").data, ("label").data,
    ("web").data, ("menu").data, ("nav").data, ("header").data, ("footer").data,
    ("container").data, ("wrapper").data])
    (.cat (RE.plus wsCls) (RE.anyOf [("button").data, ("label").data, ("display").data,
      ("none").data, ("flex").data, ("grid").data, ("style").data])))

/-- `/\d+px|\d+em|\d+rem|rgba?\(|#[0-9a-fA-F]{3,6}/`. -/
def cssUnitRe : RE :=
  .alt (.cat (RE.plus digitCls) (RE.lit ("px").data))
  (.alt (.cat (RE.plus digitCls) (RE.lit ("em").data))
  (.alt (.cat (RE.plus digitCls) (RE.lit ("rem").data))
  (.alt (.cat (RE.lit ("rgb").data) (.cat (RE.opt (RE.chr 'a')) (RE.chr '(')))
        (.cat (RE.chr '#') hexRep36))))

/-- `/\{[\s\S]*\}/`. -/
def braceBlockRe : RE := .cat (RE.chr '{') (.cat (.star anyCls) (RE.chr '}'))

/-- `/display\s+(none|block|flex|grid|inline)/i`. -/
def displayRe : RE :=
  .cat (RE.lit ("display").data) (.cat (RE.plus wsCls)
    (RE.anyOf [("none").data, ("block").data, ("flex").data, ("grid").data, ("inline").data]))

def countDots (s : List Char) : Nat := (s.filter fun c => c == '.').length

/-- The filter callback of rev 2: as rev 1 (with the extended deny-list)
plus the CSS/HTML structural-noise rejections; `s.split('.').length` is
`countDots s + 1`. -/
def keepSentenceMarkup (s : List Char) : Bool :=
  if s.length < 15 || 600 < s.length then false
  else if hasExcludedKeyword excludeKeywordsMarkup s then false
  else if RE.search cssChainRe (toLowerList s) then false
  else if RE.search cssUnitRe s then false
  else if RE.search braceBlockRe s then false
  else if RE.search displayRe (toLowerList s) then false
  else if s.any (fun c => c == '.') && decide (5 < countDots s + 1) then false
  else hasThreeLetters s && decide (3 * s.length < 10 * letterCount s)

/-- `extractSentences` (rev 2). -/
def extractSentencesMarkup (t : List Char) : List (List Char) :=
  ((splitSentences (cleanText (filterMainContentMarkup t))).map trimList).filter
    keepSentenceMarkup

/-! ### Language gates

Rev 1 (lenient, whole text): `.replace(/\d+/g,'')` (drop digits),
`.replace(/[^\w\s]/g,' ')`, `.replace(/\s+/g,' ')`, `.trim()`; reject only
when more than 100 analyzable characters remain and the letter ratio is
below `0.3`.  Rev 2 (strict, sampled): the same cleaning applied to
`fullText.slice(floor(0.2 * len), floor(0.3 * len))`, a `0.6` ratio
threshold, and a common-English-word count. -/

def cleanForLang (t : List Char) : List Char :=
  trimList (collapseRuns isWsChar ((t.filter fun c => !isDigitChar c).map fun c =>
    if isWordChar c || isWsChar c then c else ' '))

def isLikelyEnglishLenient (t : List Char) : Bool :=
  if 100 < (cleanForLang t).length then
    if 10 * letterCount (cleanForLang t) < 3 * (cleanForLang t).length then false else true
  else true

def commonEnglishWords : List (List Char) :=
  [("the").data, ("and").data, ("is").data, ("in").data, ("to").data, ("of").data,
   ("a").data, ("that").data, ("it").data, ("was").data, ("for").data, ("on").data,
   ("with").data, ("as").data, ("be").data]

/-- `fullText.slice(Math.floor(len*0.2), Math.floor(len*0.3))`. -/
def strictSample (t : List Char) : List Char :=
  (t.drop (2 * t.length / 10)).take (3 * t.length / 10 - 2 * t.length / 10)

def isLikelyEnglishStrict (t : List Char) : Bool :=
  if 100 < (cleanForLang (strictSample t)).length then
    if 10 * letterCount (cleanForLang (strictSample t)) <
        6 * (cleanForLang (strictSample t)).length then false
    else if (commonEnglishWords.filter fun w =>
        containsList ((' ' :: w) ++ [' ']) (toLowerList (cleanForLang (strictSample t)))).length
        < 5 then false
    else true
  else true

/-! ### Predicates used in stating the claims -/

/-- Join segments with single spaces (used to state that the lookaround
split loses no text on whitespace-normalized input). -/
def joinSp : List (List Char) → List Char
  | [] => []
  | [l] => l
  | l :: ls => l ++ ' ' :: joinSp ls

/-- Every whitespace character is a plain space. -/
def allWsSpace (s : List Char) : Bool := s.all fun c => !isWsChar c || c == ' '

/-- No two adjacent whitespace characters. -/
def noAdjWs : List Char → Bool
  | a :: b :: t => (!isWsChar a || !isWsChar b) && noAdjWs (b :: t)
  | _ => true

/-- Whitespace-normalized: runs collapsed to single spaces and trimmed. -/
def isNormalizedWs (s : List Char) : Bool :=
  allWsSpace s && noAdjWs s && decide (trimList s = s)

/-- `x` occurs as a contiguous segment of `y`. -/
def InfixOf (x y : List Char) : Prop := ∃ a b, y = a ++ x ++ b

/-! ### Helper lemmas: infixes and adjacency -/

theorem infixOf_trans {x y z : List Char} (h1 : InfixOf x y) (h2 : InfixOf y z) : InfixOf x z := by
  obtain ⟨a, b, rfl⟩ := h1
  obtain ⟨c, d, rfl⟩ := h2
  exact ⟨c ++ a, b ++ d, by simp⟩

theorem infixOf_ext_left (z : List Char) {x y : List Char} (h : InfixOf x y) :
    InfixOf x (z ++ y) := by
  obtain ⟨a, b, rfl⟩ := h
  exact ⟨z ++ a, b, by simp⟩

theorem mem_of_infixOf {c : Char} {x y : List Char} (hc : c ∈ x) (h : InfixOf x y) : c ∈ y := by
  obtain ⟨a, b, rfl⟩ := h
  simp [hc]

theorem noAdjWs_tail {c : Char} {l : List Char} (h : noAdjWs (c :: l) = true) :
    noAdjWs l = true := by
  cases l with
  | nil => rfl
  | cons b t =>
    simp only [noAdjWs, Bool.and_eq_true] at h
    exact h.2

theorem noAdjWs_append_right : ∀ (l b : List Char), noAdjWs (l ++ b) = true → noAdjWs l = true
  | [], _, _ => rfl
  | [_], _, _ => rfl
  | a :: a' :: t, b, h => by
    simp only [List.cons_append, noAdjWs, Bool.and_eq_true] at h ⊢
    exact ⟨h.1, noAdjWs_append_right (a' :: t) b h.2⟩

theorem noAdjWs_append_left : ∀ (a l : List Char), noAdjWs (a ++ l) = true → noAdjWs l = true
  | [], _, h => h
  | c :: cs, l, h =>
    noAdjWs_append_left cs l (noAdjWs_tail (c := c) (by simpa using h))

theorem noAdjWs_of_infixOf {x y : List Char} (h : InfixOf x y) (hy : noAdjWs y = true) :
    noAdjWs x = true := by
  obtain ⟨a, b, rfl⟩ := h
  exact noAdjWs_append_right x b (noAdjWs_append_left a (x ++ b) (by simpa using hy))

/-! ### Helper lemmas: trimming -/

theorem dropWhile_head_not (p : Char → Bool) : ∀ (s : List Char) (c : Char),
    (s.dropWhile p).head? = some c → p c = false
  | [], c, h => by simp [List.dropWhile] at h
  | a :: t, c, h => by
    cases hp : p a with
    | true => exact dropWhile_head_not p t c (by simpa [List.dropWhile, hp] using h)
    | false =>
      have : a = c := by simpa [List.dropWhile, hp] using h
      subst this
      exact hp

theorem dropLastWhile_getLast_not (p : Char → Bool) : ∀ (s : List Char) (c : Char),
    (dropLastWhile p s).getLast? = some c → p c = false
  | [], c, h => by simp [dropLastWhile] at h
  | a :: t, c, h => by
    rcases hr : dropLastWhile p t with _ | ⟨y, ys⟩
    · rw [dropLastWhile, hr] at h
      cases hp : p a with
      | true => simp [hp] at h
      | false =>
        have : a = c := by simpa [hp] using h
        subst this
        exact hp
    · rw [dropLastWhile, hr] at h
      exact dropLastWhile_getLast_not p t c (by rw [hr]; simpa using h)

theorem dropLastWhile_head_eq (p : Char → Bool) : ∀ (s : List Char) (c : Char),
    (dropLastWhile p s).head? = some c → s.head? = some c
  | [], c, h => by simp [dropLastWhile] at h
  | a :: t, c, h => by
    rcases hr : dropLastWhile p t with _ | ⟨y, ys⟩
    · rw [dropLastWhile, hr] at h
      cases hp : p a with
      | true => simp [hp] at h
      | false =>
        have : a = c := by simpa [hp] using h
        subst this
        rfl
    · rw [dropLastWhile, hr] at h
      have : a = c := by simpa using h
      subst this
      rfl

theorem dropLastWhile_prefix (p : Char → Bool) : ∀ s : List Char, ∃ b, s = dropLastWhile p s ++ b
  | [] => ⟨[], rfl⟩
  | a :: t => by
    obtain ⟨b, hb⟩ := dropLastWhile_prefix p t
    rcases hr : dropLastWhile p t with _ | ⟨y, ys⟩
    · cases hp : p a with
      | true => exact ⟨a :: t, by rw [dropLastWhile, hr]; simp [hp]⟩
      | false =>
        refine ⟨b, ?_⟩
        rw [dropLastWhile, hr]
        simp only [hp]
        rw [hr] at hb
        simpa using congrArg (a :: ·) hb
    · refine ⟨b, ?_⟩
      rw [dropLastWhile, hr]
      rw [hr] at hb
      simpa using congrArg (a :: ·) hb

theorem trimList_infixOf (s : List Char) : InfixOf (trimList s) s := by
  obtain ⟨b, hb⟩ := dropLastWhile_prefix isWsChar (s.dropWhile isWsChar)
  refine ⟨s.takeWhile isWsChar, b, ?_⟩
  conv_lhs => rw [← List.takeWhile_append_dropWhile (p := isWsChar) (l := s)]
  rw [hb]
  simp [trimList]

theorem trimList_head_not_ws (s : List Char) (c : Char) (h : (trimList s).head? = some c) :
    isWsChar c = false :=
  dropWhile_head_not isWsChar s c (dropLastWhile_head_eq isWsChar (s.dropWhile isWsChar) c h)

theorem trimList_getLast_not_ws (s : List Char) (c : Char) (h : (trimList s).getLast? = some c) :
    isWsChar c = false :=
  dropLastWhile_getLast_not isWsChar (s.dropWhile isWsChar) c h

/-! ### Helper lemmas: run collapsing -/

theorem collapseRunsGo_mem (p : Char → Bool) : ∀ (l : List Char) (b : Bool) (c : Char),
    c ∈ collapseRunsGo p b l → c = ' ' ∨ (c ∈ l ∧ p c = false)
  | [], _, c, h => by simp [collapseRunsGo] at h
  | a :: t, b, c, h => by
    cases hp : p a with
    | true =>
      cases b with
      | true =>
        rcases collapseRunsGo_mem p t true c (by simpa [collapseRunsGo, hp] using h) with h1 | h2
        · exact Or.inl h1
        · exact Or.inr ⟨List.mem_cons_of_mem _ h2.1, h2.2⟩
      | false =>
        rcases (by simpa [collapseRunsGo, hp] using h :
            c = ' ' ∨ c ∈ collapseRunsGo p true t) with h1 | h2
        · exact Or.inl h1
        · rcases collapseRunsGo_mem p t true c h2 with h3 | h4
          · exact Or.inl h3
          · exact Or.inr ⟨List.mem_cons_of_mem _ h4.1, h4.2⟩
    | false =>
      rcases (by simpa [collapseRunsGo, hp] using h :
          c = a ∨ c ∈ collapseRunsGo p false t) with h1 | h2
      · subst h1
        exact Or.inr ⟨List.mem_cons_self _ _, hp⟩
      · rcases collapseRunsGo_mem p t false c h2 with h3 | h4
        · exact Or.inl h3
        · exact Or.inr ⟨List.mem_cons_of_mem _ h4.1, h4.2⟩

theorem collapseRunsGo_true_head (p : Char → Bool) : ∀ (l : List Char) (c : Char),
    (collapseRunsGo p true l).head? = some c → p c = false
  | [], c, h => by simp [collapseRunsGo] at h
  | a :: t, c, h => by
    cases hp : p a with
    | true => exact collapseRunsGo_true_head p t c (by simpa [collapseRunsGo, hp] using h)
    | false =>
      have : a = c := by simpa [collapseRunsGo, hp] using h
      subst this
      exact hp

theorem collapseRunsGo_noAdjWs : ∀ (l : List Char) (b : Bool),
    noAdjWs (collapseRunsGo isWsChar b l) = true
  | [], _ => rfl
  | a :: t, b => by
    cases hw : isWsChar a with
    | true =>
      cases b with
      | true => simpa [collapseRunsGo, hw] using collapseRunsGo_noAdjWs t true
      | false =>
        simp only [collapseRunsGo, hw, if_true]
        rcases hX : collapseRunsGo isWsChar true t with _ | ⟨y, ys⟩
        · rfl
        · have hy : isWsChar y = false :=
            collapseRunsGo_true_head isWsChar t y (by rw [hX]; rfl)
          have hrest := collapseRunsGo_noAdjWs t true
          rw [hX] at hrest
          simp [noAdjWs, hy, hrest]
    | false =>
      simp only [collapseRunsGo, hw]
      rcases hX : collapseRunsGo isWsChar false t with _ | ⟨y, ys⟩
      · rfl
      · have hrest := collapseRunsGo_noAdjWs t false
        rw [hX] at hrest
        simp [noAdjWs, hw, hrest]

/-! ### Helper lemmas: the lookaround split -/

theorem splitGo_ne_nil : ∀ (s acc buf : List Char), splitGo acc buf s ≠ []
  | [], acc, buf => by simp [splitGo]
  | c :: cs, acc, buf => by
    cases hw : isWsChar c with
    | true =>
      cases buf with
      | nil =>
        cases ht : accEndsTerm acc with
        | true => simpa [splitGo, hw, ht] using splitGo_ne_nil cs acc [c]
        | false => simpa [splitGo, hw, ht] using splitGo_ne_nil cs (c :: acc) []
      | cons b bs => simpa [splitGo, hw] using splitGo_ne_nil cs acc (c :: b :: bs)
    | false =>
      cases buf with
      | nil => simpa [splitGo, hw] using splitGo_ne_nil cs (c :: acc) []
      | cons b bs =>
        cases hu : isUpperChar c with
        | true => simp [splitGo, hw, hu]
        | false => simpa [splitGo, hw, hu] using splitGo_ne_nil cs (c :: ((b :: bs) ++ acc)) []

theorem joinSp_cons (x : List Char) (l : List (List Char)) (h : l ≠ []) :
    joinSp (x :: l) = x ++ ' ' :: joinSp l := by
  cases l with
  | nil => exact absurd rfl h
  | cons y ys => rfl

theorem splitGo_join : ∀ (s acc buf : List Char),
    allWsSpace s = true → noAdjWs s = true →
    (buf = [] ∨ (buf = [' '] ∧ ∀ c, s.head? = some c → isWsChar c = false)) →
    joinSp (splitGo acc buf s) = acc.reverse ++ buf.reverse ++ s
  | [], acc, buf, _, _, _ => by simp [splitGo, joinSp, List.reverse_append]
  | c :: cs, acc, buf, hws, hadj, hbuf => by
    have hws' : allWsSpace cs = true := by
      simp only [allWsSpace, List.all_cons, Bool.and_eq_true] at hws
      exact hws.2
    have hadj' : noAdjWs cs = true := noAdjWs_tail hadj
    cases hw : isWsChar c with
    | true =>
      have hbufnil : buf = [] := by
        rcases hbuf with rfl | ⟨rfl, hcond⟩
        · rfl
        · exact absurd (hcond c rfl) (by simp [hw])
      subst hbufnil
      have hcsp : c = ' ' := by
        simp only [allWsSpace, List.all_cons, Bool.and_eq_true, hw] at hws
        have := hws.1
        simpa using this
      subst hcsp
      cases ht : accEndsTerm acc with
      | true =>
        have hcond' : ∀ d, cs.head? = some d → isWsChar d = false := by
          intro d hd
          cases cs with
          | nil => simp at hd
          | cons e t =>
            simp only [List.head?] at hd
            cases hd
            simp only [noAdjWs, Bool.and_eq_true, Bool.or_eq_true] at hadj
            rcases hadj.1 with h1 | h1
            · exact absurd (by simpa using h1) (by simp [hw])
            · simpa using h1
        have ih := splitGo_join cs acc [' '] hws' hadj' (Or.inr ⟨rfl, hcond'⟩)
        simp [splitGo, hw, ht, ih]
      | false =>
        have ih := splitGo_join cs (' ' :: acc) [] hws' hadj' (Or.inl rfl)
        simp [splitGo, hw, ht, ih]
    | false =>
      rcases hbuf with rfl | ⟨rfl, _⟩
      · have ih := splitGo_join cs (c :: acc) [] hws' hadj' (Or.inl rfl)
        simp [splitGo, hw, ih]
      · cases hu : isUpperChar c with
        | true =>
          have ih := splitGo_join cs [c] [] hws' hadj' (Or.inl rfl)
          have hne := splitGo_ne_nil cs [c] []
          simp only [splitGo, hw, hu, List.isEmpty_cons, Bool.false_eq_true, if_false,
            if_true, Bool.true_eq_false]
          rw [joinSp_cons _ _ hne, ih]
          simp
        | false =>
          have ih := splitGo_join cs (c :: ' ' :: acc) [] hws' hadj' (Or.inl rfl)
          simp [splitGo, hw, hu, ih]

theorem splitGo_head : ∀ (s acc buf : List Char),
    ∃ t, (splitGo acc buf s).head? = some (acc.reverse ++ t)
  | [], acc, buf => ⟨buf.reverse, by simp [splitGo, List.reverse_append]⟩
  | c :: cs, acc, buf => by
    cases hw : isWsChar c with
    | true =>
      cases buf with
      | nil =>
        cases ht : accEndsTerm acc with
        | true =>
          obtain ⟨t, htt⟩ := splitGo_head cs acc [c]
          exact ⟨t, by simpa [splitGo, hw, ht] using htt⟩
        | false =>
          obtain ⟨t, htt⟩ := splitGo_head cs (c :: acc) []
          refine ⟨c :: t, ?_⟩
          simp [splitGo, hw, ht, htt]
      | cons b bs =>
        obtain ⟨t, htt⟩ := splitGo_head cs acc (c :: b :: bs)
        exact ⟨t, by simpa [splitGo, hw] using htt⟩
    | false =>
      cases buf with
      | nil =>
        obtain ⟨t, htt⟩ := splitGo_head cs (c :: acc) []
        refine ⟨c :: t, ?_⟩
        simp [splitGo, hw, htt]
      | cons b bs =>
        cases hu : isUpperChar c with
        | true => exact ⟨[], by simp [splitGo, hw, hu]⟩
        | false =>
          obtain ⟨t, htt⟩ := splitGo_head cs (c :: b :: (bs ++ acc)) []
          refine ⟨(b :: bs).reverse ++ c :: t, ?_⟩
          simp [splitGo, hw, hu, htt]

theorem splitGo_dropLast_term : ∀ (s acc buf : List Char),
    (buf.isEmpty = false → accEndsTerm acc = true) →
    ∀ seg ∈ (splitGo acc buf s).dropLast,
      ∃ c, seg.getLast? = some c ∧ isTermChar c = true
  | [], acc, buf, _, seg, hseg => by simp [splitGo] at hseg
  | c :: cs, acc, buf, hbuf, seg, hseg => by
    cases hw : isWsChar c with
    | true =>
      cases buf with
      | nil =>
        cases ht : accEndsTerm acc with
        | true =>
          exact splitGo_dropLast_term cs acc [c] (fun _ => ht) seg
            (by simpa [splitGo, hw, ht] using hseg)
        | false =>
          exact splitGo_dropLast_term cs (c :: acc) [] (by simp) seg
            (by simpa [splitGo, hw, ht] using hseg)
      | cons b bs =>
        exact splitGo_dropLast_term cs acc (c :: b :: bs)
          (fun _ => hbuf (by simp)) seg (by simpa [splitGo, hw] using hseg)
    | false =>
      cases buf with
      | nil =>
        exact splitGo_dropLast_term cs (c :: acc) [] (by simp) seg
          (by simpa [splitGo, hw] using hseg)
      | cons b bs =>
        cases hu : isUpperChar c with
        | true =>
          have hterm : accEndsTerm acc = true := hbuf (by simp)
          rcases hacc : acc with _ | ⟨a, as⟩
          · rw [hacc] at hterm
            simp [accEndsTerm] at hterm
          · rw [hacc] at hseg
            simp only [splitGo, hw, hu, List.isEmpty_cons, Bool.false_eq_true, if_false,
              if_true] at hseg
            cases hL : splitGo [c] [] cs with
            | nil => exact absurd hL (splitGo_ne_nil cs [c] [])
            | cons y ys =>
              rw [hL] at hseg
              simp only [List.dropLast, List.mem_cons] at hseg
              rcases hseg with rfl | hseg
              · refine ⟨a, ?_, ?_⟩
                · simp [List.getLast?_reverse]
                · have := hterm
                  rw [hacc] at this
                  simpa [accEndsTerm] using this
              · have := splitGo_dropLast_term cs [c] [] (by simp) seg
                rw [hL] at this
                exact this (by simpa using hseg)
        | false =>
          exact splitGo_dropLast_term cs (c :: ((b :: bs) ++ acc)) [] (by simp) seg
            (by simpa [splitGo, hw, hu] using hseg)

theorem splitGo_tail_upper : ∀ (s acc buf : List Char),
    ∀ seg ∈ (splitGo acc buf s).tail, ∃ d t, seg = d :: t ∧ isUpperChar d = true
  | [], acc, buf, seg, hseg => by simp [splitGo] at hseg
  | c :: cs, acc, buf, seg, hseg => by
    cases hw : isWsChar c with
    | true =>
      cases buf with
      | nil =>
        cases ht : accEndsTerm acc with
        | true =>
          exact splitGo_tail_upper cs acc [c] seg (by simpa [splitGo, hw, ht] using hseg)
        | false =>
          exact splitGo_tail_upper cs (c :: acc) [] seg (by simpa [splitGo, hw, ht] using hseg)
      | cons b bs =>
        exact splitGo_tail_upper cs acc (c :: b :: bs) seg (by simpa [splitGo, hw] using hseg)
    | false =>
      cases buf with
      | nil =>
        exact splitGo_tail_upper cs (c :: acc) [] seg (by simpa [splitGo, hw] using hseg)
      | cons b bs =>
        cases hu : isUpperChar c with
        | true =>
          simp only [splitGo, hw, hu, List.isEmpty_cons, Bool.false_eq_true, if_false,
            if_true, List.tail_cons] at hseg
          cases hL : splitGo [c] [] cs with
          | nil => exact absurd hL (splitGo_ne_nil cs [c] [])
          | cons y ys =>
            rw [hL] at hseg
            rcases List.mem_cons.mp hseg with rfl | hseg'
            · obtain ⟨t, htt⟩ := splitGo_head cs [c] []
              rw [hL] at htt
              simp only [List.head?, Option.some.injEq] at htt
              exact ⟨c, t, by simpa using htt, hu⟩
            · have := splitGo_tail_upper cs [c] [] seg
              rw [hL] at this
              exact this (by simpa using hseg')
        | false =>
          exact splitGo_tail_upper cs (c :: ((b :: bs) ++ acc)) [] seg
            (by simpa [splitGo, hw, hu] using hseg)

theorem splitGo_infixOf : ∀ (s acc buf : List Char),
    ∀ seg ∈ splitGo acc buf s, InfixOf seg (acc.reverse ++ buf.reverse ++ s)
  | [], acc, buf, seg, hseg => by
    have : seg = (buf ++ acc).reverse := by simpa [splitGo] using hseg
    subst this
    exact ⟨[], [], by simp [List.reverse_append]⟩
  | c :: cs, acc, buf, seg, hseg => by
    cases hw : isWsChar c with
    | true =>
      cases buf with
      | nil =>
        cases ht : accEndsTerm acc with
        | true =>
          have := splitGo_infixOf cs acc [c] seg (by simpa [splitGo, hw, ht] using hseg)
          simpa using this
        | false =>
          have := splitGo_infixOf cs (c :: acc) [] seg (by simpa [splitGo, hw, ht] using hseg)
          simpa [List.append_assoc] using this
      | cons b bs =>
        have := splitGo_infixOf cs acc (c :: b :: bs) seg (by simpa [splitGo, hw] using hseg)
        simpa [List.append_assoc] using this
    | false =>
      cases buf with
      | nil =>
        have := splitGo_infixOf cs (c :: acc) [] seg (by simpa [splitGo, hw] using hseg)
        simpa [List.append_assoc] using this
      | cons b bs =>
        cases hu : isUpperChar c with
        | true =>
          simp only [splitGo, hw, hu, List.isEmpty_cons, Bool.false_eq_true, if_false,
            if_true, List.mem_cons] at hseg
          rcases hseg with rfl | hseg'
          · exact ⟨[], (b :: bs).reverse ++ c :: cs, by simp⟩
          · have := splitGo_infixOf cs [c] [] seg hseg'
            have h2 : InfixOf seg (c :: cs) := by simpa using this
            have h3 := infixOf_ext_left (acc.reverse ++ (b :: bs).reverse) h2
            simpa [List.append_assoc] using h3
        | false =>
          have := splitGo_infixOf cs (c :: ((b :: bs) ++ acc)) [] seg
            (by simpa [splitGo, hw, hu] using hseg)
          simpa [List.append_assoc] using this

/-! ### Helper lemmas: the cleaned text and the sentence pipeline -/

theorem cleanText_charset (t : List Char) :
    ∀ c ∈ cleanText t, isWordChar c = true ∨ isTermChar c = true ∨ c = ' ' := by
  intro c hc
  have h1 : c ∈ collapseRunsGo isWsChar false
      ((collapseRuns isWsChar (collapseRuns isNlChar t)).map cleanChar) :=
    mem_of_infixOf hc (trimList_infixOf _)
  rcases collapseRunsGo_mem isWsChar _ false c h1 with rfl | ⟨hmem, hnw⟩
  · exact Or.inr (Or.inr rfl)
  · obtain ⟨d, hd, hcd⟩ := List.mem_map.mp hmem
    by_cases hk : (isWordChar d || isWsChar d || isTermChar d) = true
    · have hcd' : c = d := by rw [← hcd]; simp [cleanChar, hk]
      subst hcd'
      cases hword : isWordChar c with
      | true => exact Or.inl rfl
      | false =>
        cases hterm : isTermChar c with
        | true => exact Or.inr (Or.inl rfl)
        | false => exact absurd hk (by simp [hword, hterm, hnw])
    · have : c = ' ' := by
        rw [← hcd]
        simp only [cleanChar]
        rw [if_neg hk]
      exact Or.inr (Or.inr this)

theorem cleanText_noAdjWs (t : List Char) : noAdjWs (cleanText t) = true :=
  noAdjWs_of_infixOf (trimList_infixOf _) (collapseRunsGo_noAdjWs _ false)

theorem sentencePipe_mem {X : List Char} {P : List Char → Bool} {s : List Char}
    (h : s ∈ ((splitSentences X).map trimList).filter P) :
    ∃ seg, seg ∈ splitSentences X ∧ s = trimList seg ∧ P s = true := by
  rcases List.mem_filter.mp h with ⟨hmem, hP⟩
  obtain ⟨seg, hseg, hfs⟩ := List.mem_map.mp hmem
  exact ⟨seg, hseg, hfs.symm, hP⟩

theorem sentencePipe_props {X : List Char} {P : List Char → Bool} {s : List Char}
    (h : s ∈ ((splitSentences (cleanText X)).map trimList).filter P) :
    (∀ c ∈ s, isWordChar c = true ∨ isTermChar c = true ∨ c = ' ')
    ∧ noAdjWs s = true
    ∧ (∀ c, s.head? = some c → isWsChar c = false)
    ∧ (∀ c, s.getLast? = some c → isWsChar c = false) := by
  obtain ⟨seg, hseg, rfl, _⟩ := sentencePipe_mem h
  have hseg_infix : InfixOf seg (cleanText X) := by
    have := splitGo_infixOf (cleanText X) [] [] seg hseg
    simpa using this
  have hs_infix : InfixOf (trimList seg) (cleanText X) :=
    infixOf_trans (trimList_infixOf seg) hseg_infix
  refine ⟨?_, ?_, ?_, ?_⟩
  · intro c hc
    exact cleanText_charset X c (mem_of_infixOf hc hs_infix)
  · exact noAdjWs_of_infixOf hs_infix (cleanText_noAdjWs X)
  · exact fun c hc => trimList_head_not_ws seg c hc
  · exact fun c hc => trimList_getLast_not_ws seg c hc

/-! ### Helper lemmas: the acceptance cascades -/

theorem keepSentence_split {s : List Char} (h : keepSentence s = true) :
    15 ≤ s.length ∧ s.length ≤ 600 ∧ 3 * s.length < 10 * letterCount s
    ∧ hasExcludedKeyword excludeKeywords s = false := by
  unfold keepSentence at h
  split at h
  · exact absurd h (by simp)
  · split at h
    · exact absurd h (by simp)
    · rename_i h1 h2
      simp only [Bool.and_eq_true, decide_eq_true_eq] at h
      simp only [Bool.or_eq_true, decide_eq_true_eq, not_or] at h1
      exact ⟨by omega, by omega, h.2, Bool.eq_false_iff.mpr h2⟩

theorem keepSentenceEarly_split {s : List Char} (h : keepSentenceEarly s = true) :
    20 ≤ s.length ∧ s.length ≤ 500 := by
  unfold keepSentenceEarly at h
  split at h
  · exact absurd h (by simp)
  · split at h
    · exact absurd h (by simp)
    · rename_i h1 h2
      simp only [Bool.or_eq_true, decide_eq_true_eq, not_or] at h1
      exact ⟨by omega, by omega⟩

theorem keepSentenceMarkup_split {s : List Char} (h : keepSentenceMarkup s = true) :
    hasExcludedKeyword excludeKeywordsMarkup s = false := by
  unfold keepSentenceMarkup at h
  split at h
  · exact absurd h (by simp)
  · split at h
    · exact absurd h (by simp)
    · rename_i h1 h2
      exact Bool.eq_false_iff.mpr h2

theorem hasExcludedKeyword_false {kws : List (List Char)} {s : List Char}
    (h : hasExcludedKeyword kws s = false) :
    ∀ kw ∈ kws, containsList (toLowerList kw) (toLowerList s) = false := by
  intro kw hkw
  unfold hasExcludedKeyword at h
  rw [List.any_eq_false] at h
  exact Bool.eq_false_iff.mpr (h kw hkw)

/-! ### The claims -/

/-- Claim C1 (amended): every sentence returned by `extractSentences` (rev 1)
has trimmed length in `[15, 600]` and alphabetic-letter count strictly above
`0.3` of its length; the early revision guarantees only the `[20, 500]`
length bounds — it performs no letter-density check, so its output can have
a letter share at or below `0.3` (see the counterexample). -/
theorem claim1_length_bounds (t s : List Char) :
    (s ∈ extractSentences t →
      15 ≤ s.length ∧ s.length ≤ 600 ∧ 3 * s.length < 10 * letterCount s)
    ∧ (s ∈ extractSentencesEarly t → 20 ≤ s.length ∧ s.length ≤ 500) := by
  constructor
  · intro h
    obtain ⟨seg, hseg, rfl, hP⟩ := sentencePipe_mem h
    obtain ⟨h1, h2, h3, _⟩ := keepSentence_split hP
    exact ⟨h1, h2, h3⟩
  · intro h
    obtain ⟨seg, hseg, rfl, hP⟩ := sentencePipe_mem h
    exact keepSentenceEarly_split hP

/-- Claim C1 counterexample: the early revision returns a sentence whose
alphabetic share is `3/26`, well below `0.3`, because it never checks the
letter ratio. -/
theorem claim1_early_density_cx :
    extractSentencesEarly (("Abc 0123456789 0123456789.").data)
        = [("Abc 0123456789 0123456789.").data]
    ∧ 10 * letterCount (("Abc 0123456789 0123456789.").data)
        ≤ 3 * (("Abc 0123456789 0123456789.").data).length := by decide

/-- Claim C1 witness at concrete extracted sentences of both revisions. -/
theorem claim1_witness :
    (15 ≤ (("Good dogs run very fast today.").data).length
      ∧ (("Good dogs run very fast today.").data).length ≤ 600
      ∧ 3 * (("Good dogs run very fast today.").data).length
          < 10 * letterCount (("Good dogs run very fast today.").data))
    ∧ (20 ≤ (("Bright stars shone over the quiet valley.").data).length
      ∧ (("Bright stars shone over the quiet valley.").data).length ≤ 500) :=
  ⟨(claim1_length_bounds (("Good dogs run very fast today.").data)
      (("Good dogs run very fast today.").data)).1 (by decide),
   (claim1_length_bounds (("Bright stars shone over the quiet valley.").data)
      (("Bright stars shone over the quiet valley.").data)).2 (by decide)⟩

/-- Claim C2: no sentence returned by `extractSentences` (rev 1) or by the
markup-aware rev 2 contains any keyword of its deny-list as a
case-insensitive substring. -/
theorem claim2_no_keyword (t s kw : List Char) :
    (s ∈ extractSentences t → kw ∈ excludeKeywords →
      containsList (toLowerList kw) (toLowerList s) = false)
    ∧ (s ∈ extractSentencesMarkup t → kw ∈ excludeKeywordsMarkup →
      containsList (toLowerList kw) (toLowerList s) = false) := by
  constructor
  · intro h hkw
    obtain ⟨seg, hseg, rfl, hP⟩ := sentencePipe_mem h
    exact hasExcludedKeyword_false (keepSentence_split hP).2.2.2 _ hkw
  · intro h hkw
    obtain ⟨seg, hseg, rfl, hP⟩ := sentencePipe_mem h
    exact hasExcludedKeyword_false (keepSentenceMarkup_split hP) _ hkw

/-- Claim C2 witness at concrete extracted sentences of both revisions. -/
theorem claim2_witness :
    containsList (toLowerList (("copyright").data))
        (toLowerList (("Good dogs sprint past the barn.").data)) = false
    ∧ containsList (toLowerList (("gutenberg").data))
        (toLowerList (("Good dogs run fast.").data)) = false :=
  ⟨(claim2_no_keyword (("Good dogs sprint past the barn.").data)
      (("Good dogs sprint past the barn.").data) (("copyright").data)).1
      (by decide) (by decide),
   (claim2_no_keyword (("Good dogs run fast.").data)
      (("Good dogs run fast.").data) (("gutenberg").data)).2
      (by decide) (by decide)⟩

/-- Claim C3 (amended): in strict mode, whenever the stripped 20%–30% sample
has more than 100 analyzable characters and its alphabetic share is below
the `0.6` threshold, the gate returns `false` regardless of the
common-word count.  The extra more-than-100-characters hypothesis is forced
by the code: on shorter samples the ratio is never consulted (see the
counterexample). -/
theorem claim3_strict_gate (t : List Char)
    (h1 : 100 < (cleanForLang (strictSample t)).length)
    (h2 : 10 * letterCount (cleanForLang (strictSample t))
        < 6 * (cleanForLang (strictSample t)).length) :
    isLikelyEnglishStrict t = false := by
  unfold isLikelyEnglishStrict
  rw [if_pos h1, if_pos h2]

/-- Claim C3 counterexample: a document whose sample has alphabetic share
exactly `0.5` (below `0.6`) that the strict gate nevertheless accepts,
because the stripped sample has at most 100 characters. -/
theorem claim3_short_sample_cx :
    isLikelyEnglishStrict (("xxxxa_xxxxxxxxxxxxxx").data) = true
    ∧ 2 * letterCount (cleanForLang (strictSample (("xxxxa_xxxxxxxxxxxxxx").data)))
        = (cleanForLang (strictSample (("xxxxa_xxxxxxxxxxxxxx").data))).length
    ∧ 10 * letterCount (cleanForLang (strictSample (("xxxxa_xxxxxxxxxxxxxx").data)))
        < 6 * (cleanForLang (strictSample (("xxxxa_xxxxxxxxxxxxxx").data))).length := by
  decide

/-- Claim C3 witness: a 1200-character document whose sample window is 120
characters of which half are letters; the strict gate rejects it. -/
theorem claim3_witness :
    isLikelyEnglishStrict (List.replicate 300 '_' ++ List.replicate 900 'a') = false :=
  claim3_strict_gate _ (by decide) (by decide)

/-- Claim C4 (amended): the lenient gate accepts exactly when at most 100
analyzable characters remain or the alphabetic share is at least `0.3`.
The code rejects only when the ratio is strictly below `0.3`, so a document
with share exactly `0.3` is accepted, contrary to the claim's strict
inequality (see the counterexample). -/
theorem claim4_lenient_gate (t : List Char) :
    isLikelyEnglishLenient t = true ↔
      ((cleanForLang t).length ≤ 100
        ∨ 3 * (cleanForLang t).length ≤ 10 * letterCount (cleanForLang t)) := by
  unfold isLikelyEnglishLenient
  by_cases h1 : 100 < (cleanForLang t).length
  · rw [if_pos h1]
    by_cases h2 : 10 * letterCount (cleanForLang t) < 3 * (cleanForLang t).length
    · rw [if_pos h2]
      simp only [Bool.false_eq_true, false_iff]
      omega
    · rw [if_neg h2]
      simp only [true_iff]
      omega
  · rw [if_neg h1]
    simp only [true_iff]
    omega

/-- Claim C4 counterexample: 130 analyzable characters of which exactly 39
are letters — the share is exactly `0.3`, not strictly above it, yet the
gate accepts. -/
theorem claim4_boundary_cx :
    isLikelyEnglishLenient (List.replicate 39 'a' ++ List.replicate 91 '_') = true
    ∧ 100 < (cleanForLang (List.replicate 39 'a' ++ List.replicate 91 '_')).length
    ∧ ¬(3 * (cleanForLang (List.replicate 39 'a' ++ List.replicate 91 '_')).length
        < 10 * letterCount (cleanForLang (List.replicate 39 'a' ++ List.replicate 91 '_'))) := by
  decide

/-- Claim C5: the content filter drops exactly the first
`floor(0.15 * lineCount)` lines (`15 * n / 100` in exact arithmetic), which
never exceeds the number of lines, and empty input produces empty output;
in rev 2 the same holds with `lineCount` taken after the noise filter. -/
theorem claim5_skip_exact (t : List Char) :
    filterMainContentLines t
        = (splitOnNl t).drop (15 * (splitOnNl t).length / 100)
    ∧ (filterMainContentLines t).length
        = (splitOnNl t).length - 15 * (splitOnNl t).length / 100
    ∧ 15 * (splitOnNl t).length / 100 ≤ (splitOnNl t).length
    ∧ filterMainContent [] = []
    ∧ filterMainContentMarkupLines t
        = (noiseKeptLines t).drop (15 * (noiseKeptLines t).length / 100)
    ∧ filterMainContentMarkup [] = [] := by
  refine ⟨rfl, ?_, ?_, by decide, rfl, by decide⟩
  · simp [filterMainContentLines]
  · calc 15 * (splitOnNl t).length / 100
        ≤ 100 * (splitOnNl t).length / 100 := Nat.div_le_div_right (by omega)
      _ = (splitOnNl t).length := Nat.mul_div_cancel_left _ (by omega)

/-- Claim C6: the filtered line sequence of either revision is a subsequence
of the raw document's lines: order preserved, lines only dropped. -/
theorem claim6_sublist (t : List Char) :
    List.Sublist (filterMainContentLines t) (splitOnNl t)
    ∧ List.Sublist (filterMainContentMarkupLines t) (splitOnNl t) := by
  constructor
  · exact List.drop_sublist _ _
  · exact List.Sublist.trans (List.drop_sublist _ _) (List.filter_sublist _)

/-- Claim C7: on whitespace-normalized input the lookaround split loses no
text — rejoining with single spaces reconstructs the input exactly (hence a
trailing unterminated fragment survives as the last segment) — every
segment except possibly the last ends in a sentence-terminal character, and
every segment except the first starts with an uppercase letter. -/
theorem claim7_split_structure (nt : List Char) (h : isNormalizedWs nt = true) :
    joinSp (splitSentences nt) = nt
    ∧ (∀ seg ∈ (splitSentences nt).dropLast,
        ∃ c, seg.getLast? = some c ∧ isTermChar c = true)
    ∧ (∀ seg ∈ (splitSentences nt).tail,
        ∃ d rest, seg = d :: rest ∧ isUpperChar d = true) := by
  have hparts : allWsSpace nt = true ∧ noAdjWs nt = true := by
    simp only [isNormalizedWs, Bool.and_eq_true] at h
    exact ⟨h.1.1, h.1.2⟩
  refine ⟨?_, ?_, ?_⟩
  · have := splitGo_join nt [] [] hparts.1 hparts.2 (Or.inl rfl)
    simpa [splitSentences] using this
  · exact splitGo_dropLast_term nt [] [] (by simp)
  · exact splitGo_tail_upper nt [] []

/-- Claim C7 witness at a concrete normalized two-sentence string. -/
theorem claim7_witness :
    joinSp (splitSentences (("Nice day today. Very nice indeed.").data))
        = ("Nice day today. Very nice indeed.").data
    ∧ (∀ seg ∈ (splitSentences (("Nice day today. Very nice indeed.").data)).dropLast,
        ∃ c, seg.getLast? = some c ∧ isTermChar c = true)
    ∧ (∀ seg ∈ (splitSentences (("Nice day today. Very nice indeed.").data)).tail,
        ∃ d rest, seg = d :: rest ∧ isUpperChar d = true) :=
  claim7_split_structure (("Nice day today. Very nice indeed.").data) (by decide)

/-- Claim C8: the canonical input yields exactly its two full sentences,
each ending in a period and starting with an uppercase letter, and the
empty string yields no sentences. -/
theorem claim8_concrete :
    extractSentences (("This is a sufficiently long narrative sentence about adventure. Another equally long narrative sentence follows here today.").data)
      = [("This is a sufficiently long narrative sentence about adventure.").data,
         ("Another equally long narrative sentence follows here today.").data]
    ∧ (∀ s ∈ extractSentences (("This is a sufficiently long narrative sentence about adventure. Another equally long narrative sentence follows here today.").data),
        s.getLast? = some '.' ∧ isUpperChar (s.headD ' ') = true)
    ∧ extractSentences [] = [] := by decide

/-- Claim C9: the `skipPatterns` list is dead code — the filter keeps every
line past the fixed 15% prefix purely by position, so license boilerplate
such as `Project Gutenberg` or `Copyright ...` located after the prefix is
retained (those lines also pass rev 2's structural-noise patterns) and can
only be rejected later by the sentence-level deny-list. -/
theorem claim9_position_only (t l : List Char) :
    (l ∈ (splitOnNl t).drop (15 * (splitOnNl t).length / 100) →
      l ∈ filterMainContentLines t)
    ∧ (l ∈ (noiseKeptLines t).drop (15 * (noiseKeptLines t).length / 100) →
      l ∈ filterMainContentMarkupLines t)
    ∧ isNoiseLine (("Project Gutenberg").data) = false
    ∧ isNoiseLine (("Copyright 1999 by the author").data) = false :=
  ⟨fun h => h, fun h => h, by decide, by decide⟩

/-- Claim C9 witness: a `Copyright` line after the skipped prefix is in the
filter output, in both revisions. -/
theorem claim9_witness :
    ("Copyright 1999").data ∈ filterMainContentLines
        (("a\nb\nc\nd\ne\nf\ng\nh\ni\nCopyright 1999").data)
    ∧ ("Copyright 1999").data
        ∈ filterMainContentMarkupLines (("a\nCopyright 1999").data) :=
  ⟨(claim9_position_only (("a\nb\nc\nd\ne\nf\ng\nh\ni\nCopyright 1999").data)
      (("Copyright 1999").data)).1 (by decide),
   (claim9_position_only (("a\nCopyright 1999").data)
      (("Copyright 1999").data)).2.1 (by decide)⟩

/-- Claim C10: every sentence produced by the special-character-stripping
revisions (rev 1 and rev 2) consists only of ASCII word characters, single
spaces and the terminal punctuation `.`, `!`, `?`; it has no leading or
trailing whitespace and no two adjacent whitespace characters. -/
theorem claim10_charset (t s : List Char)
    (h : s ∈ extractSentences t ∨ s ∈ extractSentencesMarkup t) :
    (∀ c ∈ s, isWordChar c = true ∨ isTermChar c = true ∨ c = ' ')
    ∧ noAdjWs s = true
    ∧ (∀ c, s.head? = some c → isWsChar c = false)
    ∧ (∀ c, s.getLast? = some c → isWsChar c = false) := by
  rcases h with h | h
  · exact sentencePipe_props h
  · exact sentencePipe_props h

/-- Claim C10 witness at a concrete extracted sentence. -/
theorem claim10_witness :
    (∀ c ∈ ("Calm winds drift slowly home.").data,
        isWordChar c = true ∨ isTermChar c = true ∨ c = ' ')
    ∧ noAdjWs (("Calm winds drift slowly home.").data) = true
    ∧ (∀ c, (("Calm winds drift slowly home.").data).head? = some c → isWsChar c = false)
    ∧ (∀ c, (("Calm winds drift slowly home.").data).getLast? = some c →
        isWsChar c = false) :=
  claim10_charset (("Calm winds drift slowly home.").data)
    (("Calm winds drift slowly home.").data) (Or.inl (by decide))

end IaCutup
